import Mathlib

/-!
Shallow embedding of the health-tracker repository's data core:
`DataManager` (entry store), the free-text import parser
(`ImportManager.parseTextData`) and the trend calculator
(`ChartRenderer.calculateTrendLine` / `drawEnhancedLegend`).

JavaScript semantics modelled:
* dates are UTC epoch milliseconds (`Int`); the runtime's timezone offset is
  fixed to 0 (UTC environment);
* JS numbers appearing here are exact (integers / finite decimals), modelled
  by `Rat`; `NaN` is tracked explicitly where it can arise (`parseFloat`,
  division by zero);
* `Array.prototype.sort` is a stable sort and is modelled extensionally by
  `List.insertionSort` (stable, hence extensionally equal for the consistent
  comparators used by the source);
* in-place mutation of shared objects in the text parser is modelled with an
  explicit arena of entries addressed by index.
-/

namespace HealthTracker

/-! ### JS number rendering and parsing -/

/-- Decimal digits of a natural number, most significant first. -/
def natDigits (n : Nat) : String := toString n

/-- Fractional digits of `num/den` (long division), `fuel` bounds the length.
Used only on terminating decimals in practice. -/
def fracDigits : Nat → Nat → Nat → String
  | 0, _, _ => ""
  | _, 0, _ => ""
  | fuel + 1, r, d =>
    if r = 0 then ""
    else
      let q := (r * 10) / d
      let r' := (r * 10) % d
      toString q ++ fracDigits fuel r' d

/-- Model of JS `Number.prototype.toString` on the exact rationals this
codebase produces (integers and terminating decimals). -/
def ratToString (q : Rat) : String :=
  let sign := if q < 0 then "-" else ""
  let n := q.num.natAbs
  let d := q.den
  if d = 1 then sign ++ natDigits n
  else sign ++ natDigits (n / d) ++ "." ++ fracDigits 40 (n % d) d

/-- Model of a JS value stored in an entry's `weight` field: the store never
inspects it, so it can be a number, `NaN`, a string, `null` or absent. -/
inductive WeightVal where
  | undef : WeightVal
  | nullv : WeightVal
  | nan : WeightVal
  | num (q : Rat) : WeightVal
  | str (s : String) : WeightVal
deriving DecidableEq, Repr

/-- JS template-literal interpolation of a weight value. -/
def weightToString : WeightVal → String
  | .undef => "undefined"
  | .nullv => "null"
  | .nan => "NaN"
  | .num q => ratToString q
  | .str s => s

/-- JS truthiness of a weight value (`entry.weight ? _ : _`). -/
def weightTruthy : WeightVal → Bool
  | .undef => false
  | .nullv => false
  | .nan => false
  | .num q => q ≠ 0
  | .str s => s ≠ ""

/-- Model of JS `parseFloat` on the character data this parser feeds it
(digits, dots, commas — no sign, no exponent): parse a leading run of
digits, optionally a dot and more digits; `none` models `NaN`. -/
def parseFloatJS (cs : List Char) : Option Rat :=
  let intPart := cs.takeWhile Char.isDigit
  let rest := cs.dropWhile Char.isDigit
  match rest with
  | '.' :: r2 =>
    let frac := r2.takeWhile Char.isDigit
    if intPart.isEmpty ∧ frac.isEmpty then none
    else
      let iv : Nat := intPart.foldl (fun n c => 10 * n + (c.toNat - 48)) 0
      let fv : Nat := frac.foldl (fun n c => 10 * n + (c.toNat - 48)) 0
      some ((iv : Rat) + (fv : Rat) / ((10 : Rat) ^ frac.length))
  | _ =>
    if intPart.isEmpty then none
    else some ((intPart.foldl (fun n c => 10 * n + (c.toNat - 48)) 0 : Nat) : Rat)

/-- JS `String.prototype.replace(',', '.')`: replaces only the first comma. -/
def replaceFirstComma : List Char → List Char
  | [] => []
  | c :: cs => if c = ',' then '.' :: cs else c :: replaceFirstComma cs

/-! ### Calendar arithmetic (proleptic Gregorian, UTC)

Standard civil-calendar conversions used to model the JS `Date` object:
`daysFromCivil`/`civilFromDays` convert between (year, month, day) and days
since the Unix epoch. -/

def daysFromCivil (y0 : Int) (m : Nat) (d : Nat) : Int :=
  let y : Int := if m ≤ 2 then y0 - 1 else y0
  let era : Int := y.fdiv 400
  let yoe : Nat := (y - era * 400).toNat
  let mp : Nat := if m > 2 then m - 3 else m + 9
  let doy : Nat := (153 * mp + 2) / 5 + d - 1
  let doe : Nat := yoe * 365 + yoe / 4 - yoe / 100 + doy
  era * 146097 + (doe : Int) - 719468

def civilFromDays (z0 : Int) : Int × Nat × Nat :=
  let z : Int := z0 + 719468
  let era : Int := z.fdiv 146097
  let doe : Nat := (z - era * 146097).toNat
  let yoe : Nat := (doe - doe / 1460 + doe / 36524 - doe / 146096) / 365
  let y : Int := (yoe : Int) + era * 400
  let doy : Nat := doe - (365 * yoe + yoe / 4 - yoe / 100)
  let mp : Nat := (5 * doy + 2) / 153
  let d : Nat := doy - (153 * mp + 2) / 5 + 1
  let m : Nat := if mp < 10 then mp + 3 else mp - 9
  (if m ≤ 2 then y + 1 else y, m, d)

/-- Model of the JS constructor `new Date(year, month0, day, hour, minute)`
in a UTC environment: month overflow is normalized into the year, day
overflow into the month; result is epoch milliseconds. -/
def jsMakeDate (year : Int) (month0 : Int) (day : Nat) (hour minute : Nat) : Int :=
  let ny := year + month0.fdiv 12
  let nm : Nat := (month0.emod 12).toNat
  let days := daysFromCivil ny (nm + 1) 1 + ((day : Int) - 1)
  days * 86400000 + ((hour * 60 + minute : Nat) : Int) * 60000

def pad2 (n : Nat) : String := if n < 10 then "0" ++ toString n else toString n

def pad4 (y : Int) : String :=
  if 0 ≤ y ∧ y < 10000 then
    let n := y.toNat
    (if n < 10 then "000" else if n < 100 then "00" else if n < 1000 then "0" else "")
      ++ toString n
  else toString y

/-- Model of `date.toISOString().slice(0, 16)` (UTC): "YYYY-MM-DDTHH:MM". -/
def toISOSlice16 (ts : Int) : String :=
  let z := ts.fdiv 86400000
  let rem : Nat := (ts - z * 86400000).toNat
  let c := civilFromDays z
  pad4 c.1 ++ "-" ++ pad2 c.2.1 ++ "-" ++ pad2 c.2.2 ++ "T"
    ++ pad2 (rem / 3600000) ++ ":" ++ pad2 (rem % 3600000 / 60000)

def isLeapYear (y : Int) : Bool := (y % 4 = 0 ∧ y % 100 ≠ 0) ∨ y % 400 = 0

def daysInMonth (y : Int) (m : Nat) : Nat :=
  if m = 2 then (if isLeapYear y then 29 else 28)
  else if m = 4 ∨ m = 6 ∨ m = 9 ∨ m = 11 then 30
  else 31

def digitsToNat (cs : List Char) : Nat :=
  cs.foldl (fun n c => 10 * n + (c.toNat - 48)) 0

def allDigits (cs : List Char) : Bool := cs.all Char.isDigit

/-- Model of `new Date(s).getTime()` on the ISO-8601 strings this
application stores ("YYYY-MM-DD", optionally "THH:MM", ":SS", ".sss", "Z");
`none` models `NaN` (an invalid date). Date-only and offset-less date-time
forms coincide in the UTC environment. -/
def parseJSDate (s : String) : Option Int :=
  match s.data with
  | y1 :: y2 :: y3 :: y4 :: '-' :: m1 :: m2 :: '-' :: d1 :: d2 :: rest =>
    if allDigits [y1, y2, y3, y4, m1, m2, d1, d2] then
      let y : Int := (digitsToNat [y1, y2, y3, y4] : Nat)
      let m := digitsToNat [m1, m2]
      let d := digitsToNat [d1, d2]
      if 1 ≤ m ∧ m ≤ 12 ∧ 1 ≤ d ∧ d ≤ daysInMonth y m then
        let base := daysFromCivil y m d * 86400000
        match rest with
        | [] => some base
        | 'T' :: h1 :: h2 :: ':' :: n1 :: n2 :: rest2 =>
          if allDigits [h1, h2, n1, n2] then
            let hh := digitsToNat [h1, h2]
            let mm := digitsToNat [n1, n2]
            if hh ≤ 23 ∧ mm ≤ 59 then
              let t := base + ((hh * 60 + mm : Nat) : Int) * 60000
              match rest2 with
              | [] => some t
              | ['Z'] => some t
              | ':' :: s1 :: s2 :: rest3 =>
                if allDigits [s1, s2] ∧ digitsToNat [s1, s2] ≤ 59 then
                  let t2 := t + ((digitsToNat [s1, s2] : Nat) : Int) * 1000
                  match rest3 with
                  | [] => some t2
                  | ['Z'] => some t2
                  | '.' :: f1 :: f2 :: f3 :: rest4 =>
                    if allDigits [f1, f2, f3] then
                      let t3 := t2 + ((digitsToNat [f1, f2, f3] : Nat) : Int)
                      match rest4 with
                      | [] => some t3
                      | ['Z'] => some t3
                      | _ => none
                    else none
                  | _ => none
                else none
              | _ => none
            else none
          else none
        | _ => none
      else none
    else none
  | _ => none

/-! ### Entry data model and `DataManager` (src/unnamed/part_001) -/

/-- One logged record, as the store sees it.  JS object fields:
`id` (number, possibly missing — `none`), `type` (string), `date` (string),
`weight` (arbitrary JS value, uninspected by the store), `notes`
(string or null), `dose` (string or null). -/
structure Entry where
  id : Option Nat := none
  type : String
  date : String
  weight : WeightVal := .undef
  notes : Option String := none
  dose : Option String := none
deriving DecidableEq, Repr

/-- Numeric date of an entry, as used by every sort comparator
(`new Date(x.date)`); entries reaching a comparator in reachable states
always have a parseable date. -/
def dateValN (e : Entry) : Int := (parseJSDate e.date).getD 0

/-- The sort order of `entries.sort((a, b) => new Date(b.date) - new Date(a.date))`:
newest first. -/
def dateGE (a b : Entry) : Prop := dateValN b ≤ dateValN a

instance : DecidableRel dateGE := fun _ _ => inferInstanceAs (Decidable (_ ≤ _))

instance : IsTotal Entry dateGE := ⟨fun a b => le_total (dateValN b) (dateValN a)⟩

instance : IsTrans Entry dateGE := ⟨fun _ _ _ h1 h2 => le_trans h2 h1⟩

/-- Stable descending sort by date, modelling the (stable) JS
`Array.prototype.sort` with the comparator above. -/
def sortByDate (l : List Entry) : List Entry := l.insertionSort dateGE

/-- JS truthiness of `entry.dose` (a string or null). -/
def doseTruthy : Option String → Bool
  | none => false
  | some s => s ≠ ""

/-- `DataManager.validateEntry`. -/
def validateEntry (e : Entry) : Bool :=
  if e.type = "" ∨ e.date = "" then false
  else if ¬ (e.type = "medication" ∨ e.type = "daily") then false
  else if (parseJSDate e.date).isNone then false
  else if e.type = "medication" ∧ ¬ doseTruthy e.dose then false
  else true

/-- The `DataManager`'s state: the in-memory list and the persisted mirror
(`localStorage` under one key; `none` = key absent). -/
structure DMState where
  entries : List Entry := []
  storage : Option (List Entry) := none
deriving DecidableEq, Repr

def emptyDM : DMState := {}

/-- `DataManager.loadData`: read the mirror (absent key yields `[]`) and sort
newest-first. -/
def loadData (s : DMState) : DMState :=
  match s.storage with
  | none => { s with entries := [] }
  | some l => { s with entries := sortByDate l }

/-- `DataManager.addEntry`.  Returns the new state and whether the entry was
accepted (`false` models the thrown `Invalid entry data`, which leaves the
state unchanged).  `now` models `Date.now() + Math.random()` for the id. -/
def addEntry (s : DMState) (e : Entry) (now : Nat) : DMState × Bool :=
  if validateEntry e then
    let e' := { e with id := some (e.id.getD now) }
    let es := e' :: s.entries
    ({ entries := es, storage := some es }, true)
  else (s, false)

/-- `DataManager.deleteEntry`: filter out matching ids; persist only when the
list shrank. -/
def deleteEntry (s : DMState) (tid : Option Nat) : DMState × Bool :=
  let filtered := s.entries.filter (fun e => e.id ≠ tid)
  if filtered.length < s.entries.length then
    ({ entries := filtered, storage := some filtered }, true)
  else
    ({ s with entries := filtered }, false)

/-- The composite dedup key of `DataManager.removeDuplicates`:
`` `${dateKey}-${dose}-${type}` `` for medication entries,
`` `${dateKey}-${weight}-${type}` `` otherwise, where `dateKey` is the date
string up to the first `'T'`. -/
def dedupKey (e : Entry) : String :=
  let dateKey := (e.date.splitOn "T").headD ""
  if e.type = "medication" then
    dateKey ++ "-" ++ (e.dose.getD "null") ++ "-" ++ e.type
  else
    dateKey ++ "-" ++ weightToString e.weight ++ "-" ++ e.type

/-- The loop of `DataManager.removeDuplicates`: keep the first entry seen for
each key (`seen` models the JS `Set`). -/
def dedupGo (seen : List String) : List Entry → List Entry
  | [] => []
  | e :: es =>
    if dedupKey e ∈ seen then dedupGo seen es
    else e :: dedupGo (dedupKey e :: seen) es

/-- `DataManager.removeDuplicates` (the resulting list). -/
def removeDuplicates (l : List Entry) : List Entry := dedupGo [] l

/-- The per-item id assignment in `DataManager.importEntries`:
`entry.id = entry.id || Date.now() + Math.random() + index`, applied (in
place) to the entries that pass validation. -/
def assignIds (now : Nat) (l : List Entry) : List Entry :=
  l.enum.map (fun p =>
    if validateEntry p.2 ∧ p.2.id = none then { p.2 with id := some (now + p.1) }
    else p.2)

/-- The value returned by a successful `importEntries`. -/
structure ImportResult where
  imported : Nat
  errors : List String
deriving DecidableEq, Repr

/-- `DataManager.importEntries`: validate each candidate independently
(collecting per-item error strings), throw — state unchanged, result `none` —
iff no candidate survives, otherwise merge, deduplicate, re-sort and
persist. -/
def importEntries (s : DMState) (newEntries : List Entry) (now : Nat) :
    DMState × Option ImportResult :=
  let cand := assignIds now newEntries
  let validE := cand.filter validateEntry
  let errors := newEntries.enum.filterMap (fun p =>
    if validateEntry p.2 then none
    else some ("Entry " ++ toString (p.1 + 1) ++ ": Validation failed"))
  if validE.isEmpty then (s, none)
  else
    let merged := validE ++ s.entries
    let deduped := removeDuplicates merged
    let sorted := sortByDate deduped
    ({ entries := sorted, storage := some sorted }, some ⟨validE.length, errors⟩)

/-! ### Free-text import parser (`ImportManager.parseTextData`, src/js/utils.js)

JS mutates a shared `currentEntry` object that may appear several times in
`parsedEntries`; the model therefore uses an arena of parser-state entries
addressed by index, with `pushed` holding the (possibly repeated) indices. -/

/-- JS whitespace for `trim` / `\s` (the characters that occur here). -/
def isJsSpace (c : Char) : Bool :=
  c = ' ' ∨ c = '\t' ∨ c = '\n' ∨ c = '\r' ∨ c = '\x0b' ∨ c = '\x0c'

def trimChars (cs : List Char) : List Char :=
  ((cs.dropWhile isJsSpace).reverse.dropWhile isJsSpace).reverse

/-- `String.prototype.split('\n')`. -/
def splitLinesChars (cs : List Char) : List (List Char) :=
  match cs with
  | [] => [[]]
  | c :: rest =>
    let r := splitLinesChars rest
    if c = '\n' then [] :: r
    else match r with
      | [] => [[c]]
      | l :: ls => (c :: l) :: ls

def isWeightChar (c : Char) : Bool := c.isDigit ∨ c = '.' ∨ c = ','

/-- Model of `line.match(/^(\d{2})\/(\d{2})\s*-\s*([\d.,]+)\s*kg/)`:
returns (day, month, raw weight capture) on a match.  The regex is anchored
at the start only; trailing content after `kg` is allowed. -/
def matchHeader (cs : List Char) : Option (Nat × Nat × List Char) :=
  match cs with
  | a1 :: a2 :: '/' :: b1 :: b2 :: rest =>
    if allDigits [a1, a2, b1, b2] then
      let afterSp := rest.dropWhile isJsSpace
      match afterSp with
      | '-' :: rest2 =>
        let rest3 := rest2.dropWhile isJsSpace
        let cap := rest3.takeWhile isWeightChar
        let rest4 := rest3.dropWhile isWeightChar
        if cap.isEmpty then none
        else
          match rest4.dropWhile isJsSpace with
          | 'k' :: 'g' :: _ => some (digitsToNat [a1, a2], digitsToNat [b1, b2], cap)
          | _ => none
      | _ => none
    else none
  | _ => none

/-- Case-insensitive character comparison. -/
def charEqCI (a b : Char) : Bool := a.toLower = b.toLower

def startsWithCI : List Char → List Char → Bool
  | [], _ => true
  | _ :: _, [] => false
  | p :: ps, c :: cs => charEqCI p c ∧ startsWithCI ps cs

/-- After the literal `mounjaro`, match `\s+([\d.,]+)\s*mg` (case
insensitive), returning the capture. -/
def matchMedTail (cs : List Char) : Option (List Char) :=
  let sp := cs.takeWhile isJsSpace
  if sp.isEmpty then none
  else
    let rest := cs.dropWhile isJsSpace
    let cap := rest.takeWhile isWeightChar
    if cap.isEmpty then none
    else
      match (rest.dropWhile isWeightChar).dropWhile isJsSpace with
      | m :: g :: _ => if charEqCI 'm' m ∧ charEqCI 'g' g then some cap else none
      | _ => none

/-- Model of `note.match(/mounjaro\s+([\d.,]+)\s*mg/i)`: scan for the first
position where the pattern matches. -/
def findMedMatch : List Char → Option (List Char)
  | [] => none
  | c :: cs =>
    match
      (if startsWithCI "mounjaro".data (c :: cs) then
        matchMedTail ((c :: cs).drop 8)
      else none)
    with
    | some cap => some cap
    | none => findMedMatch cs

/-- A parser-state entry: like `Entry` but with the `notes` field in the
state the JS object passes through (array while parsing, string-or-null
after post-processing). -/
inductive NotesField where
  | arr (l : List String) : NotesField
  | strv (s : Option String) : NotesField
deriving DecidableEq, Repr

structure PEntry where
  id : Option Nat
  date : String
  weight : WeightVal
  notes : NotesField
  type : String
  dose : Option String
deriving DecidableEq, Repr

/-- Parser loop state: the arena of allocated entry objects, the indices
pushed to `parsedEntries` (repetition = the same JS object pushed twice) and
the index of the open `currentEntry`. -/
structure PState where
  arena : List PEntry := []
  pushed : List Nat := []
  cur : Option Nat := none
deriving DecidableEq, Repr

/-- `Array.prototype.join('. ')`. -/
def joinDot : List String → String
  | [] => ""
  | [a] => a
  | a :: rest => a ++ ". " ++ joinDot rest

/-- The body of the parser's per-line loop. -/
def processLine (year : Int) (now : Nat) (st : PState) (rawLine : List Char) : PState :=
  let line := trimChars rawLine
  if line.isEmpty then st
  else
    match matchHeader line with
    | some (day, month, cap) =>
      -- save previous entry if it exists (before the range check!)
      let st1 := match st.cur with
        | some i => { st with pushed := st.pushed ++ [i] }
        | none => st
      if day < 1 ∨ day > 31 ∨ month < 1 ∨ month > 12 then
        st1  -- `continue`: currentEntry is left as it was
      else
        let weight := match parseFloatJS (replaceFirstComma cap) with
          | some q => WeightVal.num q
          | none => WeightVal.nan
        let pe : PEntry :=
          { id := some (now + st1.arena.length)
            date := toISOSlice16 (jsMakeDate year ((month : Int) - 1) day 12 0)
            weight := weight
            notes := .arr []
            type := "daily"
            dose := none }
        { arena := st1.arena ++ [pe], pushed := st1.pushed, cur := some st1.arena.length }
    | none =>
      match st.cur with
      | some i =>
        if line.headD ' ' = '-' then
          let note := trimChars (line.drop 1)
          match findMedMatch note with
          | some cap =>
            let doseStr :=
              (match parseFloatJS (replaceFirstComma cap) with
                | some q => ratToString q
                | none => "NaN") ++ "mg"
            { st with arena :=
                st.arena.modify (fun pe =>
                  { pe with type := "medication", dose := some doseStr }) i }
          | none =>
            if note.isEmpty then st
            else
              { st with arena :=
                  st.arena.modify (fun pe =>
                    { pe with notes :=
                        match pe.notes with
                        | .arr l => .arr (l ++ [String.mk note])
                        | .strv s => .strv s }) i }
        else st
      | none => st

def runLines (year : Int) (now : Nat) (st : PState) (lines : List (List Char)) : PState :=
  lines.foldl (processLine year now) st

/-- The flush of the final open entry after the loop. -/
def flushCur (st : PState) : PState :=
  match st.cur with
  | some i => { st with pushed := st.pushed ++ [i] }
  | none => st

/-- The `parsedEntries.forEach` post-processing pass converting each entry's
`notes` array to a string or null.  Visiting the same object twice (the
aliasing produced by an out-of-range header) makes JS evaluate
`null.length` or `string.join`, a `TypeError`: modelled by `none`. -/
def finalizeNotes (arena : List PEntry) : List Nat → Option (List PEntry)
  | [] => some arena
  | i :: rest =>
    match arena.get? i with
    | none => none
    | some pe =>
      match pe.notes with
      | .arr l =>
        let v : Option String := if l.length > 0 then some (joinDot l) else none
        finalizeNotes (arena.set i { pe with notes := .strv v }) rest
      | .strv none => none
      | .strv (some s) =>
        if s.length > 0 then none
        else finalizeNotes (arena.set i { pe with notes := .strv none }) rest

def toEntry (pe : PEntry) : Entry :=
  { id := pe.id
    type := pe.type
    date := pe.date
    weight := pe.weight
    notes := match pe.notes with | .strv s => s | .arr _ => none
    dose := pe.dose }

/-- `ImportManager.parseTextData` on already-split input lines: `none`
models the `catch` branch (an error message, no entries produced). -/
def parseTextLines (year : Int) (now : Nat) (lines : List (List Char)) :
    Option (List Entry) :=
  let st := flushCur (runLines year now {} lines)
  (finalizeNotes st.arena st.pushed).map fun arena =>
    (st.pushed.filterMap arena.get?).map toEntry

/-- `ImportManager.parseTextData` (the parsing core: text plus the
externally supplied year). -/
def parseTextData (text : String) (year : Int) (now : Nat) : Option (List Entry) :=
  parseTextLines year now (splitLinesChars text.data)

/-! ### Trend calculator (`ChartRenderer`, src/js/charts.js) -/

/-- JS division with the zero-denominator case tracked explicitly (`none`
models the non-finite result; with the zero numerators arising here it is
exactly `NaN`). -/
def jsDiv (a b : Rat) : Option Rat := if b = 0 then none else some (a / b)

/-- The record returned by `calculateTrendLine`.  `slope`/`intercept` are
`Option Rat` because the unguarded division can produce `NaN`. -/
structure TrendData where
  slope : Option Rat
  intercept : Option Rat
  xValues : List Rat
  firstDate : Int
deriving DecidableEq, Repr

/-- `ChartRenderer.calculateTrendLine` over (epoch-ms date, weight) pairs:
least-squares slope/intercept over (days since first sample, weight). -/
def calculateTrendLine (data : List (Int × Rat)) : Option TrendData :=
  match data with
  | [] => none
  | [_] => none
  | d0 :: _ =>
    let n : Rat := (data.length : Nat)
    let firstDate := d0.1
    let xValues := data.map (fun d => ((d.1 - firstDate : Int) : Rat) / 86400000)
    let yValues := data.map (fun d => d.2)
    let sumX := xValues.foldl (· + ·) 0
    let sumY := yValues.foldl (· + ·) 0
    let sumXY := (List.zipWith (· * ·) xValues yValues).foldl (· + ·) 0
    let sumXX := (xValues.map (fun x => x * x)).foldl (· + ·) 0
    let slope := jsDiv (n * sumXY - sumX * sumY) (n * sumXX - sumX * sumX)
    let intercept := slope.bind (fun sl => jsDiv (sumY - sl * sumX) n)
    some { slope := slope, intercept := intercept, xValues := xValues
           firstDate := firstDate }

/-- The legend statistic of `drawEnhancedLegend`:
`trendData.slope * trendData.xValues[trendData.xValues.length - 1]`
(`none` = `NaN`). -/
def weightChange (td : TrendData) : Option Rat :=
  match td.slope, td.xValues.getLast? with
  | some sl, some x => some (sl * x)
  | _, _ => none

/-- The legend's classification
`weightChange > 0.1 ? '↗ Rising' : weightChange < -0.1 ? '↘ Falling' : '→ Stable'`;
`NaN` compares false on both tests, hence "stable". -/
def trendDirection (w : Option Rat) : String :=
  match w with
  | some q =>
    if q > (1 : Rat) / 10 then "↗ Rising"
    else if q < -((1 : Rat) / 10) then "↘ Falling"
    else "→ Stable"
  | none => "→ Stable"

/-! ### General list helpers -/

theorem length_filter_lt_length_iff {α : Type} {p : α → Bool} {l : List α} :
    (l.filter p).length < l.length ↔ ∃ x ∈ l, ¬ p x := by
  have h := List.length_eq_length_filter_add (l := l) p
  constructor
  · intro hlt
    have hpos : 0 < (l.filter (! p ·)).length := by omega
    obtain ⟨x, hx⟩ := List.length_pos_iff_exists_mem.mp hpos
    exact ⟨x, (List.mem_filter.mp hx).1, by simpa using (List.mem_filter.mp hx).2⟩
  · rintro ⟨x, hx, hpx⟩
    have hpos : 0 < (l.filter (! p ·)).length :=
      List.length_pos_iff_exists_mem.mpr
        ⟨x, List.mem_filter.mpr ⟨hx, by simpa using hpx⟩⟩
    omega

theorem countP_snd_enumFrom {α : Type} (p : α → Bool) :
    ∀ (n : Nat) (l : List α),
      List.countP (fun q => p q.2) (List.enumFrom n l) = l.countP p
  | _, [] => rfl
  | n, a :: l => by
    simp only [List.enumFrom_cons, List.countP_cons, countP_snd_enumFrom p (n + 1) l]

/-! ### Validation is insensitive to the id field -/

theorem validateEntry_set_id (e : Entry) (x : Option Nat) :
    validateEntry { e with id := x } = validateEntry e := rfl

theorem countP_validateEntry_assignIds (now : Nat) (l : List Entry) :
    (assignIds now l).countP validateEntry = l.countP validateEntry := by
  unfold assignIds
  rw [List.countP_map]
  have : (validateEntry ∘ fun p : Nat × Entry =>
      if validateEntry p.2 = true ∧ p.2.id = none
      then { p.2 with id := some (now + p.1) } else p.2)
      = fun q : Nat × Entry => validateEntry q.2 := by
    funext q
    by_cases h : validateEntry q.2 = true ∧ q.2.id = none <;>
      simp [h, validateEntry_set_id]
  rw [this, List.enum]
  exact countP_snd_enumFrom validateEntry 0 l

/-! ### Claim theorems -/

/-- **C6**: `importEntries` validates each candidate independently,
collecting one error per invalid item; it fails (throws) exactly when zero
candidates survive validation, and on that failure the state — in-memory
list and persisted mirror — is unchanged; on success it reports the number
of survivors. -/
theorem importEntries_error_contract (s : DMState) (l : List Entry) (now : Nat) :
    ((importEntries s l now).2 = none ↔ l.countP validateEntry = 0)
    ∧ ((importEntries s l now).2 = none → (importEntries s l now).1 = s)
    ∧ (∀ r, (importEntries s l now).2 = some r →
        r.imported = l.countP validateEntry
        ∧ r.errors.length = l.countP (fun e => ! validateEntry e)) := by
  have hcount : ((assignIds now l).filter validateEntry).length
      = l.countP validateEntry := by
    rw [← List.countP_eq_length_filter, countP_validateEntry_assignIds]
  have herr : (l.enum.filterMap (fun p =>
      if validateEntry p.2 = true then none
      else some ("Entry " ++ toString (p.1 + 1) ++ ": Validation failed"))).length
      = l.countP (fun e => ! validateEntry e) := by
    rw [List.length_filterMap_eq_countP]
    have : (fun p : Nat × Entry =>
        (if validateEntry p.2 = true then none
         else some ("Entry " ++ toString (p.1 + 1) ++ ": Validation failed")).isSome)
        = fun p : Nat × Entry => ! validateEntry p.2 := by
      funext p
      by_cases h : validateEntry p.2 = true <;> simp [h]
    rw [this, List.enum]
    exact countP_snd_enumFrom (fun e => ! validateEntry e) 0 l
  simp only [importEntries]
  split
  next h =>
    have h0 : l.countP validateEntry = 0 := by
      rw [← hcount]
      simpa [List.isEmpty_iff, List.length_eq_zero] using h
    exact ⟨by simp [h0], fun _ => rfl, fun r hr => by simp at hr⟩
  next h =>
    have h0 : l.countP validateEntry ≠ 0 := by
      rw [← hcount]
      intro hlen
      exact h (by simpa [List.isEmpty_iff, List.length_eq_zero] using hlen)
    refine ⟨by simpa using h0, by simp, fun r hr => ?_⟩
    have hre : (⟨((assignIds now l).filter validateEntry).length,
        l.enum.filterMap (fun p =>
          if validateEntry p.2 = true then none
          else some ("Entry " ++ toString (p.1 + 1) ++ ": Validation failed"))⟩
        : ImportResult) = r := by
      exact Option.some_inj.mp hr
    rw [← hre]
    exact ⟨hcount, herr⟩

/-- **C6 witness**: a batch with no valid entry fails and leaves a concrete
state untouched; a batch with one valid entry succeeds with one error
collected for the invalid item. -/
theorem importEntries_error_contract_witness :
    ((importEntries ⟨[], none⟩ [{ type := "junk", date := "nope" }] 7).2 = none
      ∧ (importEntries ⟨[], none⟩ [{ type := "junk", date := "nope" }] 7).1
          = ⟨[], none⟩)
    ∧ ∀ r, (importEntries ⟨[], none⟩
        [{ type := "junk", date := "nope" },
         { type := "daily", date := "2025-03-02T12:00" }] 7).2 = some r →
        r.imported = 1 ∧ r.errors.length = 1 := by
  refine ⟨⟨?_, ?_⟩, ?_⟩
  · exact (importEntries_error_contract ⟨[], none⟩ _ 7).1.mpr (by decide)
  · exact (importEntries_error_contract ⟨[], none⟩ _ 7).2.1
      ((importEntries_error_contract ⟨[], none⟩ _ 7).1.mpr (by decide))
  · intro r hr
    have := (importEntries_error_contract ⟨[], none⟩
      [{ type := "junk", date := "nope" },
       { type := "daily", date := "2025-03-02T12:00" }] 7).2.2 r hr
    refine ⟨this.1.trans (by decide), this.2.trans (by decide)⟩

/-- Concrete entries for the delete witness. -/
def dw7a : Entry := { id := some 1, type := "daily", date := "2025-03-02T12:00" }

def dw7b : Entry := { id := some 2, type := "daily", date := "2025-03-01T12:00" }

def dw7 : DMState := { entries := [dw7a, dw7b], storage := some [dw7a, dw7b] }

/-- **C7**: `deleteEntry` returns `true` iff an entry with the given id was
present; it removes exactly the matching entries; when nothing matches the
whole state (in-memory list and persisted mirror) is unchanged, and it
persists the filtered list exactly on success. -/
theorem deleteEntry_contract (s : DMState) (tid : Option Nat) :
    ((deleteEntry s tid).2 = true ↔ ∃ e ∈ s.entries, e.id = tid)
    ∧ (deleteEntry s tid).1.entries = s.entries.filter (fun e => e.id ≠ tid)
    ∧ ((deleteEntry s tid).2 = false → (deleteEntry s tid).1 = s)
    ∧ ((deleteEntry s tid).2 = true →
        (deleteEntry s tid).1.storage
          = some (s.entries.filter (fun e => e.id ≠ tid))) := by
  simp only [deleteEntry]
  split
  next h =>
    obtain ⟨x, hx, hpx⟩ := length_filter_lt_length_iff.mp h
    exact ⟨iff_of_true rfl ⟨x, hx, by simpa using hpx⟩, rfl,
      fun hf => by simp at hf, fun _ => rfl⟩
  next h =>
    have heq : s.entries.filter (fun e => decide (e.id ≠ tid)) = s.entries :=
      (List.filter_sublist _).eq_of_length
        (Nat.le_antisymm (List.length_filter_le _ _) (Nat.le_of_not_lt h))
    refine ⟨iff_of_false (by simp) ?_, rfl, fun _ => ?_, fun ht => by simp at ht⟩
    · rintro ⟨x, hx, hxid⟩
      exact h (length_filter_lt_length_iff.mpr ⟨x, hx, by simp [hxid]⟩)
    · show ({ s with entries := _ } : DMState) = s
      rw [heq]

/-- **C7 witness**: deleting a present id succeeds and persists exactly the
other entries; deleting an absent id fails and leaves the concrete state
unchanged. -/
theorem deleteEntry_contract_witness :
    ((deleteEntry dw7 (some 1)).2 = true
      ∧ (deleteEntry dw7 (some 1)).1.storage = some [dw7b])
    ∧ ((deleteEntry dw7 (some 9)).2 = false
      ∧ (deleteEntry dw7 (some 9)).1 = dw7) := by
  have h9 : (deleteEntry dw7 (some 9)).2 = false := by
    have hiff := (deleteEntry_contract dw7 (some 9)).1
    cases hb : (deleteEntry dw7 (some 9)).2
    · rfl
    · exact absurd (hiff.mp hb) (by decide)
  refine ⟨⟨?_, ?_⟩, h9, (deleteEntry_contract dw7 (some 9)).2.2.1 h9⟩
  · exact (deleteEntry_contract dw7 (some 1)).1.mpr ⟨dw7a, by decide, by decide⟩
  · exact ((deleteEntry_contract dw7 (some 1)).2.2.2
      ((deleteEntry_contract dw7 (some 1)).1.mpr
        ⟨dw7a, by decide, by decide⟩)).trans (by decide)

/-- **C9**: entry validation never inspects `weight`: any entry with a valid
type, a parseable date and (for medication) a truthy dose passes
`validateEntry`, and `addEntry` stores it at the head of the list with every
field except `id` unchanged — whatever JS value (number, string, `null`,
`NaN`) sits in `weight`. -/
theorem validateEntry_ignores_weight (e : Entry)
    (htype : e.type = "daily" ∨ e.type = "medication")
    (hdate : (parseJSDate e.date).isSome)
    (hdose : e.type = "medication" → doseTruthy e.dose) :
    validateEntry e = true
    ∧ ∀ s now, (addEntry s e now).1.entries
        = { e with id := some (e.id.getD now) } :: s.entries := by
  have hne : e.date ≠ "" := by
    intro h
    rw [h] at hdate
    simp [parseJSDate] at hdate
  have hv : validateEntry e = true := by
    unfold validateEntry
    rcases htype with h | h <;>
      simp [h, hne, Option.isNone_iff_eq_none, hdose,
        Option.isSome_iff_ne_none.mp hdate]
  refine ⟨hv, fun s now => ?_⟩
  unfold addEntry
  simp [hv]

/-- A daily entry whose `weight` holds a non-numeric string. -/
def strWeightEntry : Entry :=
  { type := "daily", date := "2025-03-02T12:00", weight := .str "not a number" }

/-- **C9 witness**: an entry whose `weight` is the non-numeric string
`"not a number"` passes validation and is stored unchanged. -/
theorem validateEntry_ignores_weight_witness :
    validateEntry strWeightEntry = true
    ∧ (addEntry ⟨[], none⟩ strWeightEntry 5).1.entries
      = [{ strWeightEntry with id := some 5 }] := by
  have h := validateEntry_ignores_weight strWeightEntry
    (Or.inl rfl) (by decide) (by intro h; simp [strWeightEntry] at h)
  exact ⟨h.1, h.2 ⟨[], none⟩ 5⟩

theorem foldl_add_zeros {l : List Rat} (h : ∀ x ∈ l, x = 0) :
    l.foldl (· + ·) 0 = 0 := by
  have key : ∀ (acc : Rat), l.foldl (· + ·) acc = acc := by
    induction l with
    | nil => intro acc; rfl
    | cons a t ih =>
      intro acc
      have ha : a = 0 := h a (by simp)
      have ih' := ih (fun x hx => h x (by simp [hx]))
      simp [List.foldl, ha, ih']
  exact key 0

/-- **C10**: `calculateTrendLine` returns `null` on fewer than two points,
but on any input of two or more points whose dates are all equal, the slope
denominator `n·Σx² − (Σx)²` is zero and the unguarded division yields a
non-number slope (`none`, JS `NaN`). -/
theorem calculateTrendLine_equal_dates_nan (data : List (Int × Rat)) (c : Int)
    (h2 : 2 ≤ data.length) (hall : ∀ p ∈ data, p.1 = c) :
    (∀ d : List (Int × Rat), d.length < 2 → calculateTrendLine d = none)
    ∧ ∃ td, calculateTrendLine data = some td ∧ td.slope = none := by
  refine ⟨fun d hd => ?_, ?_⟩
  · match d, hd with
    | [], _ => rfl
    | [_], _ => rfl
  · match data, h2, hall with
    | a :: b :: rest, _, hall =>
      have hz : ∀ x ∈ (a :: b :: rest).map
          (fun d => ((d.1 - a.1 : Int) : Rat) / 86400000), x = (0 : Rat) := by
        intro x hx
        obtain ⟨p, hp, rfl⟩ := List.mem_map.mp hx
        rw [hall p hp, hall a (by simp)]
        simp
      have hzz : ∀ x ∈ ((a :: b :: rest).map
          (fun d => ((d.1 - a.1 : Int) : Rat) / 86400000)).map (fun x => x * x),
          x = (0 : Rat) := by
        intro x hx
        obtain ⟨y, hy, rfl⟩ := List.mem_map.mp hx
        rw [hz y hy]
        ring
      refine ⟨_, rfl, ?_⟩
      show jsDiv _ _ = none
      rw [foldl_add_zeros hz, foldl_add_zeros hzz]
      norm_num [jsDiv]

/-- **C10 witness**: two points sharing one date make the slope `NaN`. -/
theorem calculateTrendLine_equal_dates_nan_witness :
    (calculateTrendLine [((5 : Int), (80 : Rat))] = none)
    ∧ ∃ td, calculateTrendLine [((5 : Int), (80 : Rat)), (5, 81)] = some td
        ∧ td.slope = none := by
  have h := calculateTrendLine_equal_dates_nan [((5 : Int), (80 : Rat)), (5, 81)] 5
    (by decide) (by decide)
  exact ⟨h.1 [(5, 80)] (by decide), h.2⟩

/-- The full output of the trend calculation on weights 80, 79, 78 at three
consecutive days (any start date `t0` in epoch ms). -/
theorem trend_concrete (t0 : Int) :
    calculateTrendLine [(t0, 80), (t0 + 86400000, 79), (t0 + 172800000, 78)]
      = some ⟨some (-1), some 80, [0, 1, 2], t0⟩ := by
  simp only [calculateTrendLine, List.map, List.zipWith, List.foldl, List.length]
  norm_num [jsDiv]

/-- **C5**: on weights `[80, 79, 78]` at three equally spaced consecutive
days the regression slope is −1 per day, the legend's net change
(slope × last x-offset) is −2, and the classification (net change > +0.1
rising / < −0.1 falling / else stable) is falling. -/
theorem trend_80_79_78 (t0 : Int) :
    ∃ td,
      calculateTrendLine [(t0, 80), (t0 + 86400000, 79), (t0 + 172800000, 78)]
          = some td
        ∧ td.slope = some (-1)
        ∧ weightChange td = some (-2)
        ∧ trendDirection (weightChange td) = "↘ Falling" := by
  refine ⟨_, trend_concrete t0, rfl, ?_, ?_⟩
  · show weightChange ⟨some (-1), some 80, [0, 1, 2], t0⟩ = some (-2)
    norm_num [weightChange]
  · show trendDirection (weightChange ⟨some (-1), some 80, [0, 1, 2], t0⟩)
      = "↘ Falling"
    norm_num [weightChange, trendDirection]

/-- The weight rationals the sample parse produces, in the parser's own
terms (definitionally transparent wrappers over `parseFloatJS`). -/
def sampleW1 : Rat := (parseFloatJS (replaceFirstComma ['8', '2', ',', '5'])).getD 0

def sampleW2 : Rat := (parseFloatJS (replaceFirstComma ['8', '2', ',', '1'])).getD 0

theorem sampleW1_eq : sampleW1 = 165 / 2 := by
  simp only [sampleW1, parseFloatJS, replaceFirstComma,
    show ('8').isDigit = true from rfl, show ('2').isDigit = true from rfl,
    show ('5').isDigit = true from rfl, show ('.').isDigit = false from rfl,
    show ('8').toNat = 56 from rfl, show ('2').toNat = 50 from rfl,
    show ('5').toNat = 53 from rfl,
    List.takeWhile, List.dropWhile, List.foldl]
  norm_num

theorem sampleW2_eq : sampleW2 = 821 / 10 := by
  simp only [sampleW2, parseFloatJS, replaceFirstComma,
    show ('8').isDigit = true from rfl, show ('2').isDigit = true from rfl,
    show ('1').isDigit = true from rfl, show ('.').isDigit = false from rfl,
    show ('8').toNat = 56 from rfl, show ('2').toNat = 50 from rfl,
    show ('1').toNat = 49 from rfl,
    List.takeWhile, List.dropWhile, List.foldl]
  norm_num

/-- **C4**: parsing the four-line sample with year 2025 yields exactly two
entries: a medication entry (dose "5mg", weight 82.5, notes "felt fine") on
2025-03-01, and a daily entry (weight 82.1, no notes, no dose) on
2025-03-02.  (`now` feeds the generated ids, which the claim does not
constrain.) -/
theorem parseTextData_sample (now : Nat) :
    (parseTextData "01/03 - 82,5 kg\n- mounjaro 5 mg\n- felt fine\n02/03 - 82,1 kg"
        2025 now).map
        (List.map (fun e => (e.type, e.date, e.weight, e.notes, e.dose)))
      = some
        [("medication", "2025-03-01T12:00", WeightVal.num (165 / 2),
            some "felt fine", some "5mg"),
         ("daily", "2025-03-02T12:00", WeightVal.num (821 / 10), none, none)] := by
  have h : (parseTextData
        "01/03 - 82,5 kg\n- mounjaro 5 mg\n- felt fine\n02/03 - 82,1 kg"
        2025 now).map
        (List.map (fun e => (e.type, e.date, e.weight, e.notes, e.dose)))
      = some
        [("medication", "2025-03-01T12:00", WeightVal.num sampleW1,
            some "felt fine", some "5mg"),
         ("daily", "2025-03-02T12:00", WeightVal.num sampleW2, none, none)] := by
    rfl
  rw [h, sampleW1_eq, sampleW2_eq]

/-- Entries witnessing that a backdated `addEntry` breaks the ordering
invariant. -/
def eNewer : Entry := { type := "daily", date := "2025-03-02T12:00" }

def eOlder : Entry := { type := "daily", date := "2025-03-01T12:00" }

/-- **C1 counterexample**: from the empty store, `addEntry` of a 2025-03-02
entry followed by `addEntry` of a backdated 2025-03-01 entry — both accepted
— leaves the in-memory list *not* sorted newest-first: `addEntry` prepends
without re-sorting. -/
theorem addEntry_breaks_newest_first :
    (addEntry emptyDM eNewer 0).2 = true
    ∧ (addEntry (addEntry emptyDM eNewer 0).1 eOlder 1).2 = true
    ∧ ¬ List.Pairwise dateGE
        (addEntry (addEntry emptyDM eNewer 0).1 eOlder 1).1.entries := by
  decide

/-- **C1 amended**: the newest-first order (every earlier-positioned entry's
date ≥ every later one's) holds after `loadData` and after every successful
`importEntries`; it is preserved by `deleteEntry`; and it is preserved by
`addEntry` only when the added entry's date is at least every stored
entry's date (the source prepends without sorting). -/
theorem newest_first_invariant :
    (∀ s : DMState, List.Pairwise dateGE (loadData s).entries)
    ∧ (∀ (s : DMState) (a : List Entry) (now : Nat) (r : ImportResult),
        (importEntries s a now).2 = some r →
        List.Pairwise dateGE (importEntries s a now).1.entries)
    ∧ (∀ (s : DMState) (tid : Option Nat), List.Pairwise dateGE s.entries →
        List.Pairwise dateGE (deleteEntry s tid).1.entries)
    ∧ (∀ (s : DMState) (e : Entry) (now : Nat),
        List.Pairwise dateGE s.entries →
        (∀ x ∈ s.entries, dateValN x ≤ dateValN e) →
        List.Pairwise dateGE (addEntry s e now).1.entries) := by
  refine ⟨fun s => ?_, fun s a now r hr => ?_, fun s tid hs => ?_,
    fun s e now hs hmax => ?_⟩
  · cases h : s.storage with
    | none => simp [loadData, h]
    | some l => simpa [loadData, h] using List.sorted_insertionSort dateGE l
  · revert hr
    simp only [importEntries]
    split
    · intro hr
      simp at hr
    · intro _
      exact List.sorted_insertionSort dateGE _
  · simp only [deleteEntry]
    split
    · exact hs.sublist (List.filter_sublist _)
    · exact hs.sublist (List.filter_sublist _)
  · simp only [addEntry]
    split
    · exact List.pairwise_cons.mpr ⟨fun b hb => hmax b hb, hs⟩
    · exact hs

/-- A valid entry dated after everything in `dw7`. -/
def cw2later : Entry :=
  { id := some 42, type := "daily", date := "2025-03-07T08:30" }

/-- **C1 amended witness**: the four preserved-order clauses at concrete
inputs. -/
theorem newest_first_invariant_witness :
    List.Pairwise dateGE (loadData ⟨[], some [eOlder, eNewer]⟩).entries
    ∧ List.Pairwise dateGE
        (importEntries emptyDM [{ type := "daily", date := "2025-03-05" }] 3).1.entries
    ∧ List.Pairwise dateGE (deleteEntry dw7 (some 1)).1.entries
    ∧ List.Pairwise dateGE (addEntry dw7 cw2later 9).1.entries := by
  refine ⟨newest_first_invariant.1 _, ?_, ?_, ?_⟩
  · exact newest_first_invariant.2.1 emptyDM
      [{ type := "daily", date := "2025-03-05" }] 3 ⟨1, []⟩ (by decide)
  · exact newest_first_invariant.2.2.1 dw7 (some 1) (by decide)
  · exact newest_first_invariant.2.2.2 dw7 cw2later 9 (by decide) (by decide)

/-- **C2**: adding a valid entry `e` (not already present) and re-loading
from storage yields a list that contains `e` exactly once and is sorted in
descending date order.  (`e.id.isSome` models the JS behaviour that
`addEntry` assigns the id in place on the caller's object, so the stored
object *is* `e`.) -/
theorem add_then_load (s : DMState) (e : Entry) (now : Nat)
    (hv : validateEntry e = true) (hid : e.id.isSome)
    (hnot : e ∉ s.entries) :
    (loadData (addEntry s e now).1).entries.count e = 1
    ∧ List.Pairwise dateGE (loadData (addEntry s e now).1).entries := by
  obtain ⟨v, hv'⟩ := Option.isSome_iff_exists.mp hid
  have hsome : some (e.id.getD now) = e.id := by
    rw [hv']
    rfl
  have he' : ({ e with id := some (e.id.getD now) } : Entry) = e := by
    rw [hsome]
  have hstep : (addEntry s e now).1
      = { entries := e :: s.entries, storage := some (e :: s.entries) } := by
    simp only [addEntry, hv, if_true, he']
  rw [hstep]
  constructor
  · show (sortByDate (e :: s.entries)).count e = 1
    rw [sortByDate, (List.perm_insertionSort dateGE (e :: s.entries)).count_eq]
    simp [List.count_cons_self, List.count_eq_zero.mpr hnot]
  · show List.Pairwise dateGE (sortByDate (e :: s.entries))
    exact List.sorted_insertionSort dateGE _

/-- **C2 witness**: a concrete add-then-load containing the entry once, in
order. -/
theorem add_then_load_witness :
    (loadData (addEntry dw7 cw2later 3).1).entries.count cw2later = 1
    ∧ List.Pairwise dateGE (loadData (addEntry dw7 cw2later 3).1).entries :=
  add_then_load dw7 cw2later 3 (by decide) (by decide) (by decide)

/-! ### Stable-sort and dedup toolkit for import idempotence -/

theorem dedupGo_cons (seen : List String) (e : Entry) (es : List Entry) :
    dedupGo seen (e :: es)
      = if dedupKey e ∈ seen then dedupGo seen es
        else e :: dedupGo (dedupKey e :: seen) es := rfl

theorem dedupGo_congr :
    ∀ (l : List Entry) (s₁ s₂ : List String), (∀ k, k ∈ s₁ ↔ k ∈ s₂) →
      dedupGo s₁ l = dedupGo s₂ l
  | [], _, _, _ => rfl
  | e :: es, s₁, s₂, h => by
    rw [dedupGo_cons, dedupGo_cons]
    by_cases hk : dedupKey e ∈ s₁
    · rw [if_pos hk, if_pos ((h _).mp hk), dedupGo_congr es s₁ s₂ h]
    · rw [if_neg hk, if_neg (fun hc => hk ((h _).mpr hc)),
        dedupGo_congr es (dedupKey e :: s₁) (dedupKey e :: s₂)
          (fun k => by simp [h k])]

theorem dedupGo_append :
    ∀ (a b : List Entry) (seen : List String),
      dedupGo seen (a ++ b) = dedupGo seen a ++ dedupGo (a.map dedupKey ++ seen) b
  | [], _, _ => rfl
  | e :: a, b, seen => by
    rw [List.cons_append, dedupGo_cons, dedupGo_cons, List.map_cons]
    by_cases hk : dedupKey e ∈ seen
    · rw [if_pos hk, if_pos hk, dedupGo_append a b seen]
      congr 1
      apply dedupGo_congr
      intro k
      simp only [List.mem_append, List.mem_cons]
      constructor
      · tauto
      · rintro ((rfl | h) | h)
        · exact Or.inr hk
        · exact Or.inl h
        · exact Or.inr h
    · rw [if_neg hk, if_neg hk, dedupGo_append a b (dedupKey e :: seen),
        List.cons_append]
      congr 2
      apply dedupGo_congr
      intro k
      simp only [List.mem_append, List.mem_cons]
      tauto

theorem mem_dedupGo :
    ∀ {l : List Entry} {seen : List String} {x : Entry}, x ∈ dedupGo seen l →
      x ∈ l ∧ dedupKey x ∉ seen
  | [], _, _, h => by simp [dedupGo] at h
  | e :: es, seen, x, h => by
    rw [dedupGo_cons] at h
    by_cases hk : dedupKey e ∈ seen
    · rw [if_pos hk] at h
      have := mem_dedupGo h
      exact ⟨List.mem_cons_of_mem _ this.1, this.2⟩
    · rw [if_neg hk] at h
      rcases List.mem_cons.mp h with rfl | h'
      · exact ⟨List.mem_cons_self _ _, hk⟩
      · have := mem_dedupGo h'
        exact ⟨List.mem_cons_of_mem _ this.1,
          fun hc => this.2 (List.mem_cons_of_mem _ hc)⟩

theorem dedupGo_pairwise :
    ∀ (l : List Entry) (seen : List String),
      (dedupGo seen l).Pairwise (fun a b => dedupKey a ≠ dedupKey b)
  | [], _ => List.Pairwise.nil
  | e :: es, seen => by
    rw [dedupGo_cons]
    by_cases hk : dedupKey e ∈ seen
    · rw [if_pos hk]
      exact dedupGo_pairwise es seen
    · rw [if_neg hk]
      refine List.pairwise_cons.mpr ⟨fun b hb hkb => ?_, dedupGo_pairwise es _⟩
      exact (mem_dedupGo hb).2 (by simp [← hkb])

theorem dedupGo_filter_subset :
    ∀ (l : List Entry) (seen S : List String), (∀ k ∈ S, k ∈ seen) →
      dedupGo seen (l.filter (fun e => ! (dedupKey e ∈ S : Bool)))
        = dedupGo seen l
  | [], _, _, _ => rfl
  | e :: es, seen, S, hS => by
    by_cases he : dedupKey e ∈ S
    · rw [List.filter_cons_of_neg (by simp [he]),
        dedupGo_filter_subset es seen S hS,
        dedupGo_cons, if_pos (hS _ he)]
    · rw [List.filter_cons_of_pos (by simp [he]), dedupGo_cons, dedupGo_cons]
      by_cases hk : dedupKey e ∈ seen
      · rw [if_pos hk, if_pos hk]
        exact dedupGo_filter_subset es seen S hS
      · rw [if_neg hk, if_neg hk,
          dedupGo_filter_subset es (dedupKey e :: seen) S
            (fun k hk' => List.mem_cons_of_mem _ (hS _ hk'))]

theorem dedupGo_eq_self :
    ∀ (l : List Entry) (seen : List String),
      (∀ x ∈ l, dedupKey x ∉ seen) →
      l.Pairwise (fun a b => dedupKey a ≠ dedupKey b) →
      dedupGo seen l = l
  | [], _, _, _ => rfl
  | e :: es, seen, hs, hp => by
    have hk : dedupKey e ∉ seen := hs e (List.mem_cons_self _ _)
    rw [dedupGo_cons, if_neg hk,
      dedupGo_eq_self es _ (fun x hx => ?_) (List.pairwise_cons.mp hp).2]
    intro hc
    rcases List.mem_cons.mp hc with hc | hc
    · exact (List.pairwise_cons.mp hp).1 x hx hc.symm
    · exact hs x (List.mem_cons_of_mem _ hx) hc

theorem orderedInsert_of_forall {x : Entry} {l : List Entry}
    (h : ∀ c ∈ l, dateGE x c) : List.orderedInsert dateGE x l = x :: l := by
  cases l with
  | nil => rfl
  | cons b t =>
    exact List.orderedInsert_of_le dateGE t (h b (List.mem_cons_self _ _))

theorem orderedInsert_cons (x b : Entry) (t : List Entry) :
    List.orderedInsert dateGE x (b :: t)
      = if dateGE x b then x :: b :: t
        else b :: List.orderedInsert dateGE x t := rfl

theorem orderedInsert_filter (p : Entry → Bool) (x : Entry) :
    ∀ (l : List Entry), l.Sorted dateGE →
      (List.orderedInsert dateGE x l).filter p
        = if p x then List.orderedInsert dateGE x (l.filter p) else l.filter p
  | [], _ => by
    by_cases hp : p x
    · rw [if_pos hp]
      simp [List.orderedInsert, List.filter_cons_of_pos hp]
    · rw [if_neg hp]
      simp [List.orderedInsert, List.filter_cons_of_neg hp]
  | b :: t, hs => by
    rw [orderedInsert_cons]
    by_cases hxb : dateGE x b
    · rw [if_pos hxb]
      by_cases hp : p x
      · rw [if_pos hp, List.filter_cons_of_pos hp]
        have hall : ∀ c ∈ (b :: t).filter p, dateGE x c := by
          intro c hc
          rcases List.mem_cons.mp (List.mem_of_mem_filter hc) with rfl | hct
          · exact hxb
          · exact le_trans (List.rel_of_sorted_cons hs c hct) hxb
        rw [orderedInsert_of_forall hall]
      · rw [if_neg hp, List.filter_cons_of_neg hp]
    · rw [if_neg hxb]
      have ih := orderedInsert_filter p x t hs.of_cons
      by_cases hp : p x
      · rw [if_pos hp] at ih ⊢
        by_cases hpb : p b
        · rw [List.filter_cons_of_pos hpb, List.filter_cons_of_pos hpb, ih,
            orderedInsert_cons, if_neg hxb]
        · rw [List.filter_cons_of_neg hpb, List.filter_cons_of_neg hpb, ih]
      · rw [if_neg hp] at ih ⊢
        by_cases hpb : p b
        · rw [List.filter_cons_of_pos hpb, List.filter_cons_of_pos hpb, ih]
        · rw [List.filter_cons_of_neg hpb, List.filter_cons_of_neg hpb, ih]

theorem insertionSort_cons (x : Entry) (l : List Entry) :
    (x :: l).insertionSort dateGE
      = List.orderedInsert dateGE x (l.insertionSort dateGE) := rfl

theorem insertionSort_filter (p : Entry → Bool) :
    ∀ (l : List Entry),
      (l.insertionSort dateGE).filter p = (l.filter p).insertionSort dateGE
  | [] => rfl
  | a :: l => by
    rw [insertionSort_cons,
      orderedInsert_filter p a _ (List.sorted_insertionSort dateGE l)]
    by_cases hp : p a
    · rw [if_pos hp, insertionSort_filter p l, List.filter_cons_of_pos hp,
        insertionSort_cons]
    · rw [if_neg hp, insertionSort_filter p l, List.filter_cons_of_neg hp]

theorem insertionSort_append_sort :
    ∀ (a b : List Entry),
      (a ++ b.insertionSort dateGE).insertionSort dateGE
        = (a ++ b).insertionSort dateGE
  | [], b => (List.sorted_insertionSort dateGE b).insertionSort_eq
  | x :: a, b => by
    rw [List.cons_append, List.cons_append, insertionSort_cons,
      insertionSort_cons, insertionSort_append_sort a b]

/-- The merge pipeline of `importEntries` (prepend validated batch,
deduplicate keeping first occurrences, stable-sort) is idempotent in the
batch: merging the batch into its own merge result changes nothing. -/
theorem merge_idempotent (V X : List Entry) :
    sortByDate (removeDuplicates (V ++ sortByDate (removeDuplicates (V ++ X))))
      = sortByDate (removeDuplicates (V ++ X)) := by
  have hsplit : ∀ Y : List Entry, removeDuplicates (V ++ Y)
      = dedupGo [] V ++ dedupGo (V.map dedupKey) Y := by
    intro Y
    rw [removeDuplicates, dedupGo_append V Y []]
    congr 1
    apply dedupGo_congr
    intro k
    simp
  have hDV : ∀ x ∈ dedupGo ([] : List String) V, dedupKey x ∈ V.map dedupKey :=
    fun x hx => List.mem_map_of_mem dedupKey (mem_dedupGo hx).1
  have hW : ∀ x ∈ dedupGo (V.map dedupKey) X, dedupKey x ∉ V.map dedupKey :=
    fun x hx => (mem_dedupGo hx).2
  have hfDV : (dedupGo ([] : List String) V).filter
      (fun e => ! (dedupKey e ∈ V.map dedupKey : Bool)) = [] := by
    rw [List.filter_eq_nil_iff]
    intro a ha
    simp [hDV a ha]
  have hfW : (dedupGo (V.map dedupKey) X).filter
      (fun e => ! (dedupKey e ∈ V.map dedupKey : Bool))
      = dedupGo (V.map dedupKey) X := by
    rw [List.filter_eq_self]
    intro a ha
    simp [hW a ha]
  rw [hsplit X, hsplit (sortByDate (dedupGo [] V ++ dedupGo (V.map dedupKey) X))]
  have hstep : dedupGo (V.map dedupKey)
      (sortByDate (dedupGo [] V ++ dedupGo (V.map dedupKey) X))
      = sortByDate (dedupGo (V.map dedupKey) X) := by
    rw [← dedupGo_filter_subset
      (sortByDate (dedupGo [] V ++ dedupGo (V.map dedupKey) X))
      (V.map dedupKey) (V.map dedupKey) (fun _ hk => hk)]
    rw [show (sortByDate (dedupGo [] V ++ dedupGo (V.map dedupKey) X)).filter
          (fun e => ! (dedupKey e ∈ V.map dedupKey : Bool))
        = sortByDate (dedupGo (V.map dedupKey) X) by
      rw [sortByDate, sortByDate, insertionSort_filter, List.filter_append,
        hfDV, hfW, List.nil_append]]
    apply dedupGo_eq_self
    · intro x hx
      exact hW x (((List.perm_insertionSort dateGE _).mem_iff).mp hx)
    · exact ((List.perm_insertionSort dateGE _).pairwise_iff
        (fun h => Ne.symm h)).mpr (dedupGo_pairwise X (V.map dedupKey))
  rw [hstep, sortByDate, sortByDate, sortByDate, insertionSort_append_sort]

/-- **C3**: re-importing the same array is a no-op.  The hypothesis that
every entry carries an id models the JS in-place id assignment: the
first import writes ids onto the caller's array objects, so the array
the second import sees is id-bearing. -/
theorem importEntries_idempotent (s : DMState) (A : List Entry)
    (now1 now2 : Nat) (hid : ∀ e ∈ A, e.id.isSome) :
    (importEntries (importEntries s A now1).1 A now2).1
      = (importEntries s A now1).1 := by
  have hmap : ∀ (now n : Nat) (l : List Entry), (∀ e ∈ l, e.id.isSome) →
      (List.enumFrom n l).map (fun p =>
        if validateEntry p.2 = true ∧ p.2.id = none
        then { p.2 with id := some (now + p.1) } else p.2) = l := by
    intro now n l
    induction l generalizing n with
    | nil => intro _; rfl
    | cons a t ih =>
      intro h
      have ha : a.id ≠ none :=
        Option.isSome_iff_ne_none.mp (h a (List.mem_cons_self _ _))
      simp only [List.enumFrom_cons, List.map_cons]
      rw [if_neg (fun hc => ha hc.2),
        ih (n + 1) (fun e he => h e (List.mem_cons_of_mem _ he))]
  have hassign : ∀ now, assignIds now A = A := fun now => hmap now 0 A hid
  simp only [importEntries, hassign]
  by_cases hV : (A.filter validateEntry).isEmpty
  · simp only [if_pos hV]
  · simp only [if_neg hV]
    rw [merge_idempotent (A.filter validateEntry) s.entries]

/-- Entries (all id-bearing, one invalid, one duplicate-keyed) for the
idempotence witness. -/
def wImpA : List Entry :=
  [{ id := some 1, type := "daily", date := "2025-03-01T12:00", weight := .num 80 },
   { id := some 2, type := "daily", date := "2025-03-01T12:00", weight := .num 80 },
   { id := some 3, type := "medication", date := "2025-03-02T12:00", dose := some "5mg" },
   { id := some 4, type := "junk", date := "2025-03-02T12:00" }]

/-- **C3 witness**: a concrete double import (duplicate composite keys
included) equals the single import. -/
theorem importEntries_idempotent_witness :
    (importEntries (importEntries dw7 wImpA 10).1 wImpA 20).1
      = (importEntries dw7 wImpA 10).1 :=
  importEntries_idempotent dw7 wImpA 10 20 (by decide)

/-! ### Parser loop characterization (for the out-of-range-header claim) -/

/-- A line whose trimmed form matches the date-header regex but whose day or
month is out of range. -/
def badHeaderLine (l : List Char) : Prop :=
  ∃ d m cap, matchHeader (trimChars l) = some (d, m, cap)
    ∧ (d < 1 ∨ d > 31 ∨ m < 1 ∨ m > 12)

/-- Processing an out-of-range header: the open entry (if any) is pushed —
again — and the loop state is otherwise unchanged (`continue` leaves
`currentEntry` pointing at the already-pushed object). -/
theorem processLine_bad (year : Int) (now : Nat) (st : PState) (l : List Char)
    (hb : badHeaderLine l) :
    processLine year now st l
      = match st.cur with
        | some i => { st with pushed := st.pushed ++ [i] }
        | none => st := by
  obtain ⟨d, m, cap, hm, hr⟩ := hb
  have hne : ¬ ((trimChars l).isEmpty = true) := by
    cases hl : trimChars l with
    | nil => rw [hl] at hm; exact absurd hm (by simp [matchHeader])
    | cons c cs => simp
  simp only [processLine, hm]
  rw [if_neg hne, if_pos hr]

theorem processLine_open (year : Int) (now : Nat) (st : PState) (l : List Char)
    {i : Nat} (hcur : st.cur = some i) :
    ((processLine year now st l).pushed = st.pushed
      ∧ (processLine year now st l).cur = some i)
    ∨ (processLine year now st l).pushed = st.pushed ++ [i] := by
  simp only [processLine, hcur]
  split
  · exact Or.inl ⟨rfl, hcur⟩
  · split
    · split
      · exact Or.inr rfl
      · exact Or.inr rfl
    · split
      · split
        · exact Or.inl ⟨rfl, rfl⟩
        · split
          · exact Or.inl ⟨rfl, hcur⟩
          · exact Or.inl ⟨rfl, rfl⟩
      · exact Or.inl ⟨rfl, hcur⟩

theorem processLine_mono (year : Int) (now : Nat) (st : PState) (l : List Char) :
    ∃ δ, (processLine year now st l).pushed = st.pushed ++ δ := by
  cases hcur : st.cur with
  | none =>
    simp only [processLine, hcur]
    split
    · exact ⟨[], by simp⟩
    · split
      · split
        · exact ⟨[], by simp⟩
        · exact ⟨[], by simp⟩
      · exact ⟨[], by simp⟩
  | some i =>
    rcases processLine_open year now st l hcur with ⟨h, _⟩ | h
    · exact ⟨[], by simp [h]⟩
    · exact ⟨[i], h⟩

theorem runLines_cons (year : Int) (now : Nat) (st : PState) (l : List Char)
    (ls : List (List Char)) :
    runLines year now st (l :: ls) = runLines year now (processLine year now st l) ls := rfl

theorem runLines_append (year : Int) (now : Nat) (st : PState)
    (a b : List (List Char)) :
    runLines year now st (a ++ b) = runLines year now (runLines year now st a) b :=
  List.foldl_append _ _ _ _

theorem runLines_mono (year : Int) (now : Nat) :
    ∀ (ls : List (List Char)) (st : PState),
      ∃ Δ, (runLines year now st ls).pushed = st.pushed ++ Δ
  | [], st => ⟨[], by simp [runLines]⟩
  | l :: ls, st => by
    obtain ⟨δ, hδ⟩ := processLine_mono year now st l
    obtain ⟨Δ, hΔ⟩ := runLines_mono year now ls (processLine year now st l)
    exact ⟨δ ++ Δ, by rw [runLines_cons, hΔ, hδ, List.append_assoc]⟩

theorem flushCur_pushed (st : PState) :
    ∃ δ, (flushCur st).pushed = st.pushed ++ δ := by
  cases h : st.cur with
  | none => exact ⟨[], by simp [flushCur, h]⟩
  | some i => exact ⟨[i], by simp [flushCur, h]⟩

theorem flushCur_arena (st : PState) : (flushCur st).arena = st.arena := by
  cases h : st.cur <;> simp [flushCur, h]

/-- An open entry's index ends up pushed (at the next header or the final
flush), after any further lines. -/
theorem runLines_open_pushed (year : Int) (now : Nat) :
    ∀ (ls : List (List Char)) (st : PState) (i : Nat), st.cur = some i →
      ∃ Δ, (flushCur (runLines year now st ls)).pushed = st.pushed ++ Δ ∧ i ∈ Δ
  | [], st, i, h => ⟨[i], by simp [runLines, flushCur, h], by simp⟩
  | l :: ls, st, i, h => by
    rcases processLine_open year now st l h with ⟨hp, hc⟩ | hp
    · obtain ⟨Δ, hΔ, hiΔ⟩ := runLines_open_pushed year now ls _ i hc
      exact ⟨Δ, by rw [runLines_cons, hΔ, hp], hiΔ⟩
    · obtain ⟨Δ, hΔ⟩ := runLines_mono year now ls (processLine year now st l)
      obtain ⟨δ2, hδ2⟩ := flushCur_pushed (runLines year now (processLine year now st l) ls)
      refine ⟨[i] ++ (Δ ++ δ2), ?_, by simp⟩
      rw [runLines_cons, hδ2, hΔ, hp, List.append_assoc, List.append_assoc]

/-! ### Notes post-processing: aliased entries crash the parse -/

/-- The invariant a notes field satisfies at every point of the parse: an
array of non-empty note strings, or — after a post-processing visit — null
or a non-empty joined string.  (`.strv (some "")` never occurs.) -/
def goodNotes : NotesField → Prop
  | .arr l => ∀ x ∈ l, x ≠ ""
  | .strv none => True
  | .strv (some s) => s ≠ ""

def okArena (arena : List PEntry) : Prop := ∀ pe ∈ arena, goodNotes pe.notes

theorem mem_modify {α : Type} (f : α → α) :
    ∀ (i : Nat) (l : List α) (x : α), x ∈ l.modify f i → x ∈ l ∨ ∃ y ∈ l, x = f y
  | _, [], x, h => by simp at h
  | 0, a :: t, x, h => by
    rw [List.modify_zero_cons] at h
    rcases List.mem_cons.mp h with rfl | h
    · exact Or.inr ⟨a, List.mem_cons_self _ _, rfl⟩
    · exact Or.inl (List.mem_cons_of_mem _ h)
  | i + 1, a :: t, x, h => by
    rw [List.modify_succ_cons] at h
    rcases List.mem_cons.mp h with rfl | h
    · exact Or.inl (List.mem_cons_self _ _)
    · rcases mem_modify f i t x h with h | ⟨y, hy, hxy⟩
      · exact Or.inl (List.mem_cons_of_mem _ h)
      · exact Or.inr ⟨y, List.mem_cons_of_mem _ hy, hxy⟩

theorem stringMk_ne_empty {l : List Char} (h : l ≠ []) : String.mk l ≠ "" := by
  intro hc
  exact h (congrArg String.data hc)

theorem joinDot_cons_cons (a b : String) (r : List String) :
    joinDot (a :: b :: r) = a ++ ". " ++ joinDot (b :: r) := rfl

theorem joinDot_ne_empty :
    ∀ {l : List String}, (∀ x ∈ l, x ≠ "") → l ≠ [] → joinDot l ≠ ""
  | [], _, hne => absurd rfl hne
  | [a], h, _ => h a (by simp)
  | a :: b :: r, h, _ => by
    intro hc
    have h1 := congrArg String.length hc
    rw [joinDot_cons_cons] at h1
    simp only [String.length_append, show ("" : String).length = 0 from rfl,
      show (". " : String).length = 2 from rfl] at h1
    omega

/-- Every `processLine` step keeps the arena's notes fields good. -/
theorem processLine_okArena (year : Int) (now : Nat) (st : PState)
    (l : List Char) (h : okArena st.arena) :
    okArena (processLine year now st l).arena := by
  have happend : ∀ (pe0 : PEntry), goodNotes pe0.notes →
      okArena (st.arena ++ [pe0]) := by
    intro pe0 h0 pe hpe
    rcases List.mem_append.mp hpe with hpe | hpe
    · exact h pe hpe
    · rcases List.mem_cons.mp hpe with rfl | hpe
      · exact h0
      · simp at hpe
  cases hcur : st.cur with
  | none =>
    simp only [processLine, hcur]
    split
    · exact h
    · split
      · split
        · exact h
        · exact happend _ (by intro x hx; simp at hx)
      · exact h
  | some i =>
    simp only [processLine, hcur]
    split
    · exact h
    · split
      · split
        · exact h
        · exact happend _ (by intro x hx; simp at hx)
      · split
        · split
          · intro pe hpe
            rcases mem_modify _ i st.arena pe hpe with hpe | ⟨y, hy, rfl⟩
            · exact h pe hpe
            · exact h y hy
          · split
            · exact h
            · next hne =>
              intro pe hpe
              rcases mem_modify _ i st.arena pe hpe with hpe | ⟨y, hy, rfl⟩
              · exact h pe hpe
              · have hy' := h y hy
                cases hn : y.notes with
                | arr lnotes =>
                  simp only [hn]
                  rw [hn] at hy'
                  intro x hx
                  rcases List.mem_append.mp hx with hx | hx
                  · exact hy' x hx
                  · rcases List.mem_cons.mp hx with rfl | hx
                    · exact stringMk_ne_empty (by simpa using hne)
                    · simp at hx
                | strv s =>
                  simp only [hn]
                  rw [hn] at hy'
                  exact hy'
        · exact h

theorem runLines_okArena (year : Int) (now : Nat) :
    ∀ (ls : List (List Char)) (st : PState), okArena st.arena →
      okArena (runLines year now st ls).arena
  | [], _, h => h
  | l :: ls, st, h =>
    runLines_okArena year now ls _ (processLine_okArena year now st l h)

/-- A notes field whose second post-processing visit raises the TypeError. -/
def badStrv (nf : NotesField) : Prop :=
  nf = .strv none ∨ ∃ s, nf = .strv (some s) ∧ s ≠ ""

theorem string_length_pos {s : String} (h : s ≠ "") : 0 < s.length := by
  cases s with
  | mk data =>
    cases data with
    | nil => exact absurd rfl h
    | cons c cs => simp

theorem finalizeNotes_cons_none {arena : List PEntry} {k : Nat}
    (rest : List Nat) (h : arena.get? k = none) :
    finalizeNotes arena (k :: rest) = none := by
  simp only [finalizeNotes, h]

theorem finalizeNotes_cons_arr {arena : List PEntry} {k : Nat} {pe : PEntry}
    {lnotes : List String} (rest : List Nat)
    (h : arena.get? k = some pe) (hn : pe.notes = .arr lnotes) :
    finalizeNotes arena (k :: rest)
      = finalizeNotes
          (arena.set k
            { pe with notes := .strv (if lnotes.length > 0 then some (joinDot lnotes) else none) })
          rest := by
  simp only [finalizeNotes, h, hn]

theorem finalizeNotes_cons_strv_none {arena : List PEntry} {k : Nat}
    {pe : PEntry} (rest : List Nat)
    (h : arena.get? k = some pe) (hn : pe.notes = .strv none) :
    finalizeNotes arena (k :: rest) = none := by
  simp only [finalizeNotes, h, hn]

theorem finalizeNotes_cons_strv_pos {arena : List PEntry} {k : Nat}
    {pe : PEntry} {s : String} (rest : List Nat)
    (h : arena.get? k = some pe) (hn : pe.notes = .strv (some s))
    (hs : 0 < s.length) :
    finalizeNotes arena (k :: rest) = none := by
  simp only [finalizeNotes, h, hn]
  rw [if_pos hs]

theorem finalizeNotes_cons_strv_zero {arena : List PEntry} {k : Nat}
    {pe : PEntry} {s : String} (rest : List Nat)
    (h : arena.get? k = some pe) (hn : pe.notes = .strv (some s))
    (hs : ¬ 0 < s.length) :
    finalizeNotes arena (k :: rest)
      = finalizeNotes (arena.set k { pe with notes := .strv none }) rest := by
  simp only [finalizeNotes, h, hn]
  rw [if_neg hs]

/-- If some index of the remaining visit list points at an entry already in
a visited (string-or-null) notes state, the pass fails. -/
theorem finalize_hits_bad :
    ∀ (rest : List Nat) (arena : List PEntry) (i : Nat), i ∈ rest →
      (∀ pe, arena.get? i = some pe → badStrv pe.notes) →
      finalizeNotes arena rest = none
  | [], _, _, h, _ => absurd h (by simp)
  | k :: r, arena, i, hmem, hbad => by
    cases hk : arena.get? k with
    | none => exact finalizeNotes_cons_none r hk
    | some pe =>
      by_cases hik : k = i
      · subst hik
        rcases hbad pe hk with h1 | ⟨s, h1, h2⟩
        · exact finalizeNotes_cons_strv_none r hk h1
        · exact finalizeNotes_cons_strv_pos r hk h1 (string_length_pos h2)
      · have hmem' : i ∈ r := by
          rcases List.mem_cons.mp hmem with rfl | hm
          · exact absurd rfl hik
          · exact hm
        have hbad' : ∀ (pe' : PEntry) (x : PEntry),
            (arena.set k x).get? i = some pe' → badStrv pe'.notes := by
          intro pe' x hpe'
          apply hbad
          rw [← hpe', List.get?_eq_getElem?, List.get?_eq_getElem?,
            List.getElem?_set_ne (fun hc => hik hc)]
        cases hn : pe.notes with
        | arr lnotes =>
          rw [finalizeNotes_cons_arr r hk hn]
          exact finalize_hits_bad r _ i hmem' (fun pe' => hbad' pe' _)
        | strv s? =>
          cases s? with
          | none => exact finalizeNotes_cons_strv_none r hk hn
          | some s =>
            by_cases hs : 0 < s.length
            · exact finalizeNotes_cons_strv_pos r hk hn hs
            · rw [finalizeNotes_cons_strv_zero r hk hn hs]
              exact finalize_hits_bad r _ i hmem' (fun pe' => hbad' pe' _)

/-- A visit list containing the same index twice makes the notes
post-processing pass fail (the JS TypeError on the aliased object). -/
theorem finalize_dup :
    ∀ (P : List Nat) (arena : List PEntry) (i : Nat) (Δ : List Nat),
      i ∈ Δ → okArena arena →
      finalizeNotes arena (P ++ i :: Δ) = none
  | [], arena, i, Δ, hiΔ, hok => by
    rw [List.nil_append]
    cases hk : arena.get? i with
    | none => exact finalizeNotes_cons_none Δ hk
    | some pe =>
      have hgood := hok pe (List.get?_mem hk)
      have hlt : i < arena.length := by
        rw [List.get?_eq_getElem?] at hk
        obtain ⟨hl, _⟩ := List.getElem?_eq_some_iff.mp hk
        exact hl
      cases hn : pe.notes with
      | arr lnotes =>
        rw [finalizeNotes_cons_arr Δ hk hn]
        apply finalize_hits_bad Δ _ i hiΔ
        intro pe' hpe'
        rw [List.get?_eq_getElem?, List.getElem?_set_self hlt] at hpe'
        cases hpe'
        show badStrv (NotesField.strv _)
        by_cases hl : lnotes.length > 0
        · rw [if_pos hl]
          refine Or.inr ⟨joinDot lnotes, rfl, ?_⟩
          rw [hn] at hgood
          exact joinDot_ne_empty hgood (by intro hc; rw [hc] at hl; simp at hl)
        · rw [if_neg hl]
          exact Or.inl rfl
      | strv s? =>
        cases s? with
        | none => exact finalizeNotes_cons_strv_none Δ hk hn
        | some s =>
          rw [hn] at hgood
          exact finalizeNotes_cons_strv_pos Δ hk hn (string_length_pos hgood)
  | p :: P', arena, i, Δ, hiΔ, hok => by
    rw [List.cons_append]
    cases hk : arena.get? p with
    | none => exact finalizeNotes_cons_none _ hk
    | some pe =>
      have hgood := hok pe (List.get?_mem hk)
      cases hn : pe.notes with
      | arr lnotes =>
        rw [finalizeNotes_cons_arr _ hk hn]
        apply finalize_dup P' _ i Δ hiΔ
        intro pe' hpe'
        rcases List.mem_or_eq_of_mem_set hpe' with hpe' | rfl
        · exact hok pe' hpe'
        · show goodNotes (NotesField.strv _)
          by_cases hl : lnotes.length > 0
          · rw [if_pos hl]
            show joinDot lnotes ≠ ""
            rw [hn] at hgood
            exact joinDot_ne_empty hgood (by intro hc; rw [hc] at hl; simp at hl)
          · rw [if_neg hl]
            trivial
      | strv s? =>
        cases s? with
        | none => exact finalizeNotes_cons_strv_none _ hk hn
        | some s =>
          rw [hn] at hgood
          exact finalizeNotes_cons_strv_pos _ hk hn (string_length_pos hgood)

/-- **C8 amended**: when an out-of-range header line arrives with no entry
open, it is skipped and parsing of the remaining lines is unaffected (the
result equals parsing the input without that line).  But when an entry is
open, the line pushes the open entry a second time (aliased); the notes
post-processing pass then hits a TypeError on the doubly-visited object,
the parser's catch reports an error, and the whole parse yields no
entries. -/
theorem parse_bad_header (year : Int) (now : Nat)
    (pre post : List (List Char)) (bad : List Char) (hb : badHeaderLine bad) :
    ((runLines year now {} pre).cur = none →
      parseTextLines year now (pre ++ bad :: post)
        = parseTextLines year now (pre ++ post))
    ∧ (∀ i, (runLines year now {} pre).cur = some i →
        parseTextLines year now (pre ++ bad :: post) = none) := by
  constructor
  · intro hcur
    have hstep : processLine year now (runLines year now {} pre) bad
        = runLines year now {} pre := by
      rw [processLine_bad year now _ bad hb, hcur]
    simp only [parseTextLines]
    rw [runLines_append, runLines_cons, hstep, ← runLines_append]
  · intro i hcur
    have hstep : processLine year now (runLines year now {} pre) bad
        = { runLines year now {} pre with
            pushed := (runLines year now {} pre).pushed ++ [i] } := by
      rw [processLine_bad year now _ bad hb, hcur]
      simp [hcur]
    have hcur2 : ({ runLines year now {} pre with
        pushed := (runLines year now {} pre).pushed ++ [i] } : PState).cur
        = some i := hcur
    obtain ⟨Δ, hΔ, hiΔ⟩ := runLines_open_pushed year now post _ i hcur2
    have hok0 : okArena (runLines year now {} pre).arena :=
      runLines_okArena year now pre {} (fun pe hpe => by simp at hpe)
    have hok : okArena (flushCur (runLines year now
        { runLines year now {} pre with
          pushed := (runLines year now {} pre).pushed ++ [i] } post)).arena := by
      rw [flushCur_arena]
      exact runLines_okArena year now post _ hok0
    simp only [parseTextLines]
    rw [runLines_append, runLines_cons, hstep, hΔ]
    have hsplit : ({ runLines year now {} pre with
        pushed := (runLines year now {} pre).pushed ++ [i] } : PState).pushed ++ Δ
        = (runLines year now {} pre).pushed ++ (i :: Δ) := by
      show ((runLines year now {} pre).pushed ++ [i]) ++ Δ = _
      rw [List.append_assoc, List.singleton_append]
    rw [hsplit, finalize_dup _ _ i Δ hiΔ hok]
    rfl

/-- **C8 counterexample**: with a valid header line before the out-of-range
header `32/01 - 70 kg`, the parse yields *no* entries at all (the aliased
duplicate crashes the notes pass and the error handler swallows the batch),
while the same input without the bad line parses to one entry — so parsing
does not simply skip the bad line and continue. -/
theorem parse_bad_header_counterexample :
    parseTextData "01/03 - 82,5 kg\n32/01 - 70 kg" 2025 0 = none
    ∧ (parseTextData "01/03 - 82,5 kg" 2025 0).map (List.map (fun e => e.date))
        = some ["2025-03-01T12:00"] :=
  ⟨rfl, rfl⟩

/-- **C8 amended witness**: the two clauses at concrete inputs — a leading
bad header is skipped cleanly, a bad header after a valid one aborts the
parse. -/
theorem parse_bad_header_witness :
    parseTextLines 2025 0 ([] ++ "32/01 - 70 kg".data :: ["01/03 - 82,5 kg".data])
        = parseTextLines 2025 0 ([] ++ ["01/03 - 82,5 kg".data])
    ∧ parseTextLines 2025 0 (["01/03 - 82,5 kg".data] ++ "32/01 - 70 kg".data :: [])
        = none := by
  have hb : badHeaderLine ("32/01 - 70 kg".data) :=
    ⟨32, 1, ['7', '0'], by decide, by decide⟩
  exact ⟨(parse_bad_header 2025 0 [] ["01/03 - 82,5 kg".data] _ hb).1 rfl,
    (parse_bad_header 2025 0 ["01/03 - 82,5 kg".data] [] _ hb).2 0 (by decide)⟩

end HealthTracker
